import Mathlib

/-!
# Verification of `raid_selector.py`

A shallow embedding of `src/raid_selector/raid_selector.py` and proofs of the
specification's claims about it.

Modelling choices:
* Python floats (`unit_capacity`, `unit_price`, and the derived `total_capacity`
  and `total_price`) are modelled as `ℚ`; Python ints (`drive_count` and the
  drive-count bounds) as `ℤ`.
* The price catalog, a Python `dict` iterated in insertion order, is modelled as
  an association list `List (ℚ × ℚ)` of (unit_capacity, unit_price) pairs.
* The insertion-ordered dict `all_combos : Dict[float, List[Combo]]` is
  modelled as an association list `List (ℚ × List Combo)`: inserting under an
  existing key appends to that key's bucket, a new key is appended at the end.
* `raise ValueError(...)` is modelled with `Except String`; the property
  `Combo.total_capacity`, which can raise, returns `Except String ℚ`, and
  `rank_combinations` returns `Except String (List Combo)`, propagating the
  error exactly where the Python exception would propagate.
-/

/-- The dataclass `Combo`: one candidate array configuration. -/
structure Combo where
  drive_count : ℤ
  unit_capacity : ℚ
  unit_price : ℚ
  raid_level : String
deriving Repr, DecidableEq

/-- `Combo.total_capacity`: the per-RAID-level usable capacity, exactly the
chain of membership tests of the Python property, including the literal string
list `["RAID3", "RADI4", "RAID5"]` (note the source's `"RADI4"`). Raising
`ValueError` is modelled as `Except.error`. -/
def Combo.total_capacity (c : Combo) : Except String ℚ :=
  if c.raid_level ∈ ["RAID0"] then Except.ok (c.unit_capacity * c.drive_count)
  else if c.raid_level ∈ ["RAID1"] then Except.ok c.unit_capacity
  else if c.raid_level ∈ ["RAID3", "RADI4", "RAID5"] then
    Except.ok (c.unit_capacity * ((c.drive_count : ℚ) - 1))
  else if c.raid_level ∈ ["RAID6"] then
    Except.ok (c.unit_capacity * ((c.drive_count : ℚ) - 2))
  else Except.error ("Unknown RAID Level " ++ c.raid_level)

/-- `Combo.total_price = unit_price * drive_count`. -/
def Combo.total_price (c : Combo) : ℚ :=
  c.unit_price * c.drive_count

/-- The RAID-level identifiers accepted by `Combo.total_capacity` (all others
raise). -/
def supportedRaidLevels : List String :=
  ["RAID0", "RAID1", "RAID3", "RADI4", "RAID5", "RAID6"]

/-- Python's `range(lo, hi + 1)` over `ℤ`: the integers from `lo` to `hi`
inclusive, ascending; empty when `lo > hi`. -/
def intRange (lo hi : ℤ) : List ℤ :=
  (List.range (hi + 1 - lo).toNat).map fun (i : ℕ) => lo + (i : ℤ)

/-- The iteration order of the generation loop: drive counts outermost
(ascending), catalog entries innermost (catalog iteration order). -/
def genPairs (lo hi : ℤ) (prices : List (ℚ × ℚ)) : List (ℤ × ℚ × ℚ) :=
  (intRange lo hi).flatMap fun dc => prices.map fun p => (dc, p.1, p.2)

/-- Insertion into the insertion-ordered dict `all_combos`: append `c` to the
bucket of key `k` if present, otherwise append the fresh bucket `(k, [c])` at
the end. -/
def insertCombo (m : List (ℚ × List Combo)) (k : ℚ) (c : Combo) :
    List (ℚ × List Combo) :=
  match m with
  | [] => [(k, [c])]
  | (k', cs) :: rest =>
    if k' = k then (k', cs ++ [c]) :: rest else (k', cs) :: insertCombo rest k c

/-- The generation loop of `rank_combinations`, linearized over `genPairs`:
build each `Combo`, compute its `total_capacity` (propagating the
`ValueError`), and file it under its capacity in `all_combos`. -/
def buildAll (pairs : List (ℤ × ℚ × ℚ)) (raid_level : String)
    (m : List (ℚ × List Combo)) : Except String (List (ℚ × List Combo)) :=
  match pairs with
  | [] => Except.ok m
  | (dc, uc, up) :: rest =>
    let combo : Combo := ⟨dc, uc, up, raid_level⟩
    match combo.total_capacity with
    | Except.ok tc => buildAll rest raid_level (insertCombo m tc combo)
    | Except.error e => Except.error e

/-- `min` of a Python list: `none` on the empty list (where Python would
raise), otherwise the least element. -/
def listMin {α : Type} [LinearOrder α] : List α → Option α
  | [] => none
  | x :: xs => some (xs.foldl min x)

/-- Descending insertion into a list sorted by descending first component. -/
def insertDesc (x : ℚ × List Combo) :
    List (ℚ × List Combo) → List (ℚ × List Combo)
  | [] => [x]
  | y :: ys => if y.1 ≤ x.1 then x :: y :: ys else y :: insertDesc x ys

/-- `sorted(all_combos.items(), reverse=True)`: sort the buckets by strictly
descending capacity key (the keys are pairwise distinct, so any descending
sort yields the same list Python's does). -/
def sortDesc : List (ℚ × List Combo) → List (ℚ × List Combo)
  | [] => []
  | x :: xs => insertDesc x (sortDesc xs)

/-- The dominance test of the ranking loop: with `ranked_combos` held in
reverse (head = most recently accepted), `min_price >
ranked_combos[-1].total_price` — false when nothing is accepted yet. -/
def dominatedCheck (acc : List Combo) (mp : ℚ) : Bool :=
  match acc with
  | prev :: _ => decide (prev.total_price < mp)
  | [] => false

/-- The bucket-representative computation of the ranking loop: `min_price`,
then `cheapest_combos`, then `min_drive_count` over those, then
`tightest_combos`, then `tightest_combos[0]`. Returns `none` only on an empty
bucket, which the Python code never builds. -/
def pick (combos : List Combo) : Option Combo :=
  match listMin (combos.map Combo.total_price) with
  | none => none
  | some mp =>
    let cheapest := combos.filter fun c => c.total_price == mp
    match listMin (cheapest.map Combo.drive_count) with
    | none => none
    | some mdc => (cheapest.filter fun c => c.drive_count == mdc).head?

/-- One iteration of the ranking loop on a bucket's combo list: skip the
bucket when its minimum price exceeds the last accepted price, otherwise
prepend the bucket's representative (the accumulator is kept reversed). -/
def rankStep (acc : List Combo) (combos : List Combo) : List Combo :=
  match listMin (combos.map Combo.total_price) with
  | none => acc
  | some mp =>
    if dominatedCheck acc mp then acc
    else
      match pick combos with
      | none => acc
      | some p => p :: acc

/-- The ranking loop over the capacity-sorted buckets. -/
def rankLoop : List (ℚ × List Combo) → List Combo → List Combo
  | [], acc => acc.reverse
  | (_, combos) :: rest, acc => rankLoop rest (rankStep acc combos)

/-- `rank_combinations(prices, min_drive_count, max_drive_count, raid_level)`:
generate all combinations, group them by total capacity, and rank the buckets
in descending capacity order with the dominance filter. -/
def rank_combinations (prices : List (ℚ × ℚ))
    (min_drive_count max_drive_count : ℤ) (raid_level : String) :
    Except String (List Combo) :=
  match buildAll (genPairs min_drive_count max_drive_count prices) raid_level [] with
  | Except.error e => Except.error e
  | Except.ok m => Except.ok (rankLoop (sortDesc m) [])

/-- The combinations constructed by the generation loop, in encounter order
(drive counts ascending, catalog iteration order within one drive count). -/
def combosOf (pairs : List (ℤ × ℚ × ℚ)) (raid : String) : List Combo :=
  pairs.map fun pr => ⟨pr.1, pr.2.1, pr.2.2, raid⟩

/-- The specification's bucket-selection rule, written from its words: the
first combination of the bucket (in the order the combinations were
encountered) that attains the minimum `total_price` and, among the
price-minimal ones, the minimum `drive_count`. -/
def specPick (B : List Combo) : Option Combo :=
  B.find? fun c =>
    decide ((∀ d ∈ B, c.total_price ≤ d.total_price) ∧
      ∀ d ∈ B, d.total_price = c.total_price → c.drive_count ≤ d.drive_count)

/-- `a` has strictly larger total capacity than `b` (on the `ok` values). -/
def capacityGt (a b : Combo) : Prop :=
  ∀ x y, a.total_capacity = Except.ok x → b.total_capacity = Except.ok y →
    y < x

/-- Decidable equality of results, for evaluating the embedding on concrete
inputs. -/
instance : DecidableEq (Except String (List Combo)) := fun a b =>
  match a, b with
  | Except.ok x, Except.ok y =>
    if h : x = y then isTrue (by rw [h])
    else isFalse fun hh => h (Except.ok.inj hh)
  | Except.error e, Except.error f =>
    if h : e = f then isTrue (by rw [h])
    else isFalse fun hh => h (Except.error.inj hh)
  | Except.ok _, Except.error _ => isFalse fun hh => by cases hh
  | Except.error _, Except.ok _ => isFalse fun hh => by cases hh

/-- Decidable equality of capacity results, for evaluating the embedding on
concrete inputs. -/
instance : DecidableEq (Except String ℚ) := fun a b =>
  match a, b with
  | Except.ok x, Except.ok y =>
    if h : x = y then isTrue (by rw [h])
    else isFalse fun hh => h (Except.ok.inj hh)
  | Except.error e, Except.error f =>
    if h : e = f then isTrue (by rw [h])
    else isFalse fun hh => h (Except.error.inj hh)
  | Except.ok _, Except.error _ => isFalse fun hh => by cases hh
  | Except.error _, Except.ok _ => isFalse fun hh => by cases hh

/-! ## Lemmas about `listMin` -/

theorem foldl_min_le_init {α : Type} [LinearOrder α] (xs : List α) (x : α) :
    xs.foldl min x ≤ x := by
  induction xs generalizing x with
  | nil => exact le_refl x
  | cons y ys ih => exact le_trans (ih (min x y)) (min_le_left x y)

theorem foldl_min_le_mem {α : Type} [LinearOrder α] (xs : List α) (x : α)
    {y : α} (hy : y ∈ xs) : xs.foldl min x ≤ y := by
  induction xs generalizing x with
  | nil => cases hy
  | cons z zs ih =>
    rcases List.mem_cons.mp hy with rfl | hz
    · exact le_trans (foldl_min_le_init zs (min x y)) (min_le_right x y)
    · exact ih (min x z) hz

theorem foldl_min_mem {α : Type} [LinearOrder α] (xs : List α) (x : α) :
    xs.foldl min x = x ∨ xs.foldl min x ∈ xs := by
  induction xs generalizing x with
  | nil => exact Or.inl rfl
  | cons y ys ih =>
    rcases ih (min x y) with h | h
    · rcases min_choice x y with hm | hm
      · exact Or.inl (by rw [List.foldl_cons, h, hm])
      · exact Or.inr (by rw [List.foldl_cons, h, hm]; exact List.mem_cons_self y ys)
    · exact Or.inr (List.mem_cons_of_mem y h)

theorem listMin_le {α : Type} [LinearOrder α] {l : List α} {m : α}
    (h : listMin l = some m) : ∀ x ∈ l, m ≤ x := by
  cases l with
  | nil => cases h
  | cons x xs =>
    have hm : xs.foldl min x = m := by
      simpa [listMin] using h
    intro y hy
    rcases List.mem_cons.mp hy with rfl | hy'
    · exact hm ▸ foldl_min_le_init xs y
    · exact hm ▸ foldl_min_le_mem xs x hy'

theorem listMin_mem {α : Type} [LinearOrder α] {l : List α} {m : α}
    (h : listMin l = some m) : m ∈ l := by
  cases l with
  | nil => cases h
  | cons x xs =>
    have hm : xs.foldl min x = m := by
      simpa [listMin] using h
    rcases foldl_min_mem xs x with h' | h'
    · exact List.mem_cons.mpr (Or.inl (hm.symm.trans h'))
    · exact List.mem_cons_of_mem x (hm ▸ h')

theorem listMin_isSome {α : Type} [LinearOrder α] {l : List α} (h : l ≠ []) :
    ∃ m, listMin l = some m := by
  cases l with
  | nil => exact absurd rfl h
  | cons x xs => exact ⟨xs.foldl min x, rfl⟩

/-! ## Lemmas about `intRange` -/

theorem mem_intRange {lo hi d : ℤ} : d ∈ intRange lo hi ↔ lo ≤ d ∧ d ≤ hi := by
  simp only [intRange, List.mem_map, List.mem_range]
  constructor
  · rintro ⟨i, hlt, rfl⟩
    omega
  · rintro ⟨h1, h2⟩
    exact ⟨(d - lo).toNat, by omega, by omega⟩

theorem intRange_ne_nil {lo hi : ℤ} (h : lo ≤ hi) : intRange lo hi ≠ [] := by
  intro hnil
  have : lo ∈ intRange lo hi := mem_intRange.mpr ⟨le_refl lo, h⟩
  rw [hnil] at this
  cases this

/-! ## Lemmas about `insertDesc` and `sortDesc` -/

theorem insertDesc_perm (x : ℚ × List Combo) (l : List (ℚ × List Combo)) :
    List.Perm (insertDesc x l) (x :: l) := by
  induction l with
  | nil => exact List.Perm.refl _
  | cons y ys ih =>
    by_cases h : y.1 ≤ x.1
    · simp [insertDesc, h]
    · simp only [insertDesc, if_neg h]
      exact (ih.cons y).trans (List.Perm.swap x y ys)

theorem sortDesc_perm (l : List (ℚ × List Combo)) : List.Perm (sortDesc l) l := by
  induction l with
  | nil => exact List.Perm.refl _
  | cons x xs ih => exact (insertDesc_perm x (sortDesc xs)).trans (ih.cons x)

theorem insertDesc_pairwise (x : ℚ × List Combo) {l : List (ℚ × List Combo)}
    (h : l.Pairwise fun a b => b.1 ≤ a.1) :
    (insertDesc x l).Pairwise fun a b => b.1 ≤ a.1 := by
  induction l with
  | nil => simp [insertDesc]
  | cons y ys ih =>
    rcases List.pairwise_cons.mp h with ⟨hy, hys⟩
    by_cases hc : y.1 ≤ x.1
    · simp only [insertDesc, if_pos hc]
      refine List.pairwise_cons.mpr ⟨?_, h⟩
      intro b hb
      rcases List.mem_cons.mp hb with rfl | hb'
      · exact hc
      · exact le_trans (hy b hb') hc
    · simp only [insertDesc, if_neg hc]
      refine List.pairwise_cons.mpr ⟨?_, ih hys⟩
      intro b hb
      have hb' : b ∈ x :: ys := (insertDesc_perm x ys).mem_iff.mp hb
      rcases List.mem_cons.mp hb' with rfl | hb''
      · exact le_of_not_le hc
      · exact hy b hb''

theorem sortDesc_pairwise (l : List (ℚ × List Combo)) :
    (sortDesc l).Pairwise fun a b => b.1 ≤ a.1 := by
  induction l with
  | nil => exact List.Pairwise.nil
  | cons x xs ih => exact insertDesc_pairwise x ih

theorem sortDesc_pairwise_lt {l : List (ℚ × List Combo)}
    (hnd : (l.map Prod.fst).Nodup) :
    (sortDesc l).Pairwise fun a b => b.1 < a.1 := by
  have hnd' : ((sortDesc l).map Prod.fst).Nodup :=
    (((sortDesc_perm l).map Prod.fst).symm.nodup hnd)
  have hne : (sortDesc l).Pairwise fun a b => a.1 ≠ b.1 :=
    (List.pairwise_map).mp hnd'
  exact ((sortDesc_pairwise l).and hne).imp
    fun hab => lt_of_le_of_ne hab.1 (Ne.symm hab.2)

/-! ## Lemmas about `insertCombo` -/

theorem insertCombo_keys (m : List (ℚ × List Combo)) (k : ℚ) (c : Combo) :
    (insertCombo m k c).map Prod.fst =
      if k ∈ m.map Prod.fst then m.map Prod.fst
      else m.map Prod.fst ++ [k] := by
  induction m with
  | nil => simp [insertCombo]
  | cons y ys ih =>
    obtain ⟨k', cs⟩ := y
    by_cases h : k' = k
    · subst h
      simp [insertCombo]
    · simp only [insertCombo, if_neg h, List.map_cons, ih]
      by_cases hm : k ∈ ys.map Prod.fst
      · simp [hm, Ne.symm h]
      · simp [hm, Ne.symm h]

theorem insertCombo_keys_nodup {m : List (ℚ × List Combo)} {k : ℚ} {c : Combo}
    (h : (m.map Prod.fst).Nodup) :
    ((insertCombo m k c).map Prod.fst).Nodup := by
  rw [insertCombo_keys]
  by_cases hm : k ∈ m.map Prod.fst
  · simpa [hm] using h
  · simp only [if_neg hm]
    refine List.Nodup.append h (List.nodup_singleton k) ?_
    intro a ha hb
    rw [List.mem_singleton] at hb
    exact hm (hb ▸ ha)

theorem insertCombo_forall {P : ℚ → Combo → Prop} {m : List (ℚ × List Combo)}
    {k : ℚ} {c : Combo} (hm : ∀ q ∈ m, ∀ x ∈ q.2, P q.1 x) (hc : P k c) :
    ∀ q ∈ insertCombo m k c, ∀ x ∈ q.2, P q.1 x := by
  induction m with
  | nil =>
    intro q hq x hx
    rw [insertCombo, List.mem_singleton] at hq
    subst hq
    rw [List.mem_singleton] at hx
    subst hx
    exact hc
  | cons y ys ih =>
    obtain ⟨k', cs⟩ := y
    intro q hq x hx
    by_cases h : k' = k
    · subst h
      rw [insertCombo, if_pos rfl, List.mem_cons] at hq
      rcases hq with rfl | hq
      · rcases List.mem_append.mp hx with hx' | hx'
        · exact hm (k', cs) (List.mem_cons_self _ _) x hx'
        · rw [List.mem_singleton] at hx'
          subst hx'
          exact hc
      · exact hm q (List.mem_cons_of_mem _ hq) x hx
    · rw [insertCombo, if_neg h, List.mem_cons] at hq
      rcases hq with rfl | hq
      · exact hm (k', cs) (List.mem_cons_self _ _) x hx
      · exact ih (fun q' hq' => hm q' (List.mem_cons_of_mem _ hq')) q hq x hx

theorem insertCombo_ne_nil {m : List (ℚ × List Combo)} {k : ℚ} {c : Combo}
    (hm : ∀ q ∈ m, q.2 ≠ []) : ∀ q ∈ insertCombo m k c, q.2 ≠ [] := by
  induction m with
  | nil =>
    intro q hq
    rw [insertCombo, List.mem_singleton] at hq
    subst hq
    simp
  | cons y ys ih =>
    obtain ⟨k', cs⟩ := y
    intro q hq
    by_cases h : k' = k
    · subst h
      rw [insertCombo, if_pos rfl, List.mem_cons] at hq
      rcases hq with rfl | hq
      · simp
      · exact hm q (List.mem_cons_of_mem _ hq)
    · rw [insertCombo, if_neg h, List.mem_cons] at hq
      rcases hq with rfl | hq
      · exact hm (k', cs) (List.mem_cons_self _ _)
      · exact ih (fun q' hq' => hm q' (List.mem_cons_of_mem _ hq')) q hq

theorem insertCombo_persist {m : List (ℚ × List Combo)} {k' : ℚ}
    {B : List Combo} {x : Combo} (hq : (k', B) ∈ m) (hx : x ∈ B) (k : ℚ)
    (c : Combo) : ∃ B', (k', B') ∈ insertCombo m k c ∧ x ∈ B' := by
  induction m with
  | nil => cases hq
  | cons y ys ih =>
    obtain ⟨ky, cs⟩ := y
    by_cases h : ky = k
    · subst h
      rw [insertCombo, if_pos rfl]
      rcases List.mem_cons.mp hq with heq | hq'
      · rw [Prod.mk.injEq] at heq
        obtain ⟨rfl, rfl⟩ := heq
        exact ⟨B ++ [c], List.mem_cons_self _ _,
          List.mem_append.mpr (Or.inl hx)⟩
      · exact ⟨B, List.mem_cons_of_mem _ hq', hx⟩
    · rw [insertCombo, if_neg h]
      rcases List.mem_cons.mp hq with heq | hq'
      · rw [Prod.mk.injEq] at heq
        obtain ⟨rfl, rfl⟩ := heq
        exact ⟨B, List.mem_cons_self _ _, hx⟩
      · obtain ⟨B', hB', hxB'⟩ := ih hq'
        exact ⟨B', List.mem_cons_of_mem _ hB', hxB'⟩

theorem insertCombo_self (m : List (ℚ × List Combo)) (k : ℚ) (c : Combo) :
    ∃ B, (k, B) ∈ insertCombo m k c ∧ c ∈ B := by
  induction m with
  | nil => exact ⟨[c], List.mem_singleton_self _, List.mem_singleton_self _⟩
  | cons y ys ih =>
    obtain ⟨ky, cs⟩ := y
    by_cases h : ky = k
    · subst h
      refine ⟨cs ++ [c], ?_, List.mem_append.mpr (Or.inr (List.mem_singleton_self c))⟩
      rw [insertCombo, if_pos rfl]
      exact List.mem_cons_self _ _
    · obtain ⟨B, hB, hc⟩ := ih
      refine ⟨B, ?_, hc⟩
      rw [insertCombo, if_neg h]
      exact List.mem_cons_of_mem _ hB

/-! ## Lemmas about `buildAll` -/

theorem buildAll_preserve {Q : List (ℚ × List Combo) → Prop}
    (hstep : ∀ m k c, Q m → Q (insertCombo m k c)) :
    ∀ (pairs : List (ℤ × ℚ × ℚ)) (raid : String)
      (m0 m : List (ℚ × List Combo)),
      buildAll pairs raid m0 = Except.ok m → Q m0 → Q m := by
  intro pairs
  induction pairs with
  | nil =>
    intro raid m0 m h hq
    rw [buildAll] at h
    cases h
    exact hq
  | cons pr rest ih =>
    intro raid m0 m h hq
    obtain ⟨dc, uc, up⟩ := pr
    rw [buildAll] at h
    cases hcap : Combo.total_capacity ⟨dc, uc, up, raid⟩ with
    | error e =>
      rw [hcap] at h
      cases h
    | ok tc =>
      rw [hcap] at h
      exact ih raid _ m h (hstep m0 tc _ hq)

theorem buildAll_forall {P : ℚ → Combo → Prop} :
    ∀ (pairs : List (ℤ × ℚ × ℚ)) (raid : String)
      (m0 m : List (ℚ × List Combo)),
      buildAll pairs raid m0 = Except.ok m →
      (∀ q ∈ m0, ∀ x ∈ q.2, P q.1 x) →
      (∀ pr ∈ pairs, ∀ k,
        Combo.total_capacity ⟨pr.1, pr.2.1, pr.2.2, raid⟩ = Except.ok k →
        P k ⟨pr.1, pr.2.1, pr.2.2, raid⟩) →
      ∀ q ∈ m, ∀ x ∈ q.2, P q.1 x := by
  intro pairs
  induction pairs with
  | nil =>
    intro raid m0 m h hm0 _
    rw [buildAll] at h
    cases h
    exact hm0
  | cons pr rest ih =>
    intro raid m0 m h hm0 hp
    obtain ⟨dc, uc, up⟩ := pr
    rw [buildAll] at h
    cases hcap : Combo.total_capacity ⟨dc, uc, up, raid⟩ with
    | error e =>
      rw [hcap] at h
      cases h
    | ok tc =>
      rw [hcap] at h
      refine ih raid _ m h ?_ fun pr' hpr' => hp pr' (List.mem_cons_of_mem _ hpr')
      exact insertCombo_forall hm0 (hp (dc, uc, up) (List.mem_cons_self _ _) tc hcap)

theorem buildAll_persist :
    ∀ (pairs : List (ℤ × ℚ × ℚ)) (raid : String)
      (m0 m : List (ℚ × List Combo)),
      buildAll pairs raid m0 = Except.ok m →
      ∀ k B x, (k, B) ∈ m0 → x ∈ B → ∃ B', (k, B') ∈ m ∧ x ∈ B' := by
  intro pairs
  induction pairs with
  | nil =>
    intro raid m0 m h k B x hB hx
    rw [buildAll] at h
    cases h
    exact ⟨B, hB, hx⟩
  | cons pr rest ih =>
    intro raid m0 m h k B x hB hx
    obtain ⟨dc, uc, up⟩ := pr
    rw [buildAll] at h
    cases hcap : Combo.total_capacity ⟨dc, uc, up, raid⟩ with
    | error e =>
      rw [hcap] at h
      cases h
    | ok tc =>
      rw [hcap] at h
      obtain ⟨B1, hB1, hxB1⟩ :=
        insertCombo_persist hB hx tc ⟨dc, uc, up, raid⟩
      exact ih raid _ m h k B1 x hB1 hxB1

theorem buildAll_cover :
    ∀ (pairs : List (ℤ × ℚ × ℚ)) (raid : String)
      (m0 m : List (ℚ × List Combo)),
      buildAll pairs raid m0 = Except.ok m →
      ∀ pr ∈ pairs, ∀ k,
        Combo.total_capacity ⟨pr.1, pr.2.1, pr.2.2, raid⟩ = Except.ok k →
        ∃ B, (k, B) ∈ m ∧ (⟨pr.1, pr.2.1, pr.2.2, raid⟩ : Combo) ∈ B := by
  intro pairs
  induction pairs with
  | nil =>
    intro raid m0 m h pr hpr
    cases hpr
  | cons pr0 rest ih =>
    intro raid m0 m h pr hpr k hk
    obtain ⟨dc, uc, up⟩ := pr0
    rw [buildAll] at h
    cases hcap : Combo.total_capacity ⟨dc, uc, up, raid⟩ with
    | error e =>
      rw [hcap] at h
      cases h
    | ok tc =>
      rw [hcap] at h
      rcases List.mem_cons.mp hpr with rfl | hpr'
      · have htc : k = tc := by
          have := hk.symm.trans hcap
          exact (Except.ok.injEq .. ▸ this)
        subst htc
        obtain ⟨B0, hB0, hcB0⟩ := insertCombo_self m0 k ⟨dc, uc, up, raid⟩
        obtain ⟨B', hB', hxB'⟩ := buildAll_persist rest raid _ m h k B0 _ hB0 hcB0
        exact ⟨B', hB', hxB'⟩
      · exact ih raid _ m h pr hpr' k hk

/-! ## Error path and `genPairs` lemmas -/

theorem total_capacity_unsupported {dc : ℤ} {uc up : ℚ} {raid : String}
    (h : raid ∉ supportedRaidLevels) :
    Combo.total_capacity ⟨dc, uc, up, raid⟩ =
      Except.error ("Unknown RAID Level " ++ raid) := by
  simp only [supportedRaidLevels, List.mem_cons, List.not_mem_nil, or_false,
    not_or] at h
  obtain ⟨h0, h1, h3, h4, h5, h6⟩ := h
  simp [Combo.total_capacity, h0, h1, h3, h4, h5, h6]

theorem buildAll_error {pairs : List (ℤ × ℚ × ℚ)} {raid : String}
    {m0 : List (ℚ × List Combo)} (hne : pairs ≠ [])
    (h : raid ∉ supportedRaidLevels) :
    buildAll pairs raid m0 = Except.error ("Unknown RAID Level " ++ raid) := by
  cases pairs with
  | nil => exact absurd rfl hne
  | cons pr rest =>
    obtain ⟨dc, uc, up⟩ := pr
    rw [buildAll, total_capacity_unsupported h]

theorem mem_genPairs {lo hi : ℤ} {prices : List (ℚ × ℚ)} {pr : ℤ × ℚ × ℚ} :
    pr ∈ genPairs lo hi prices ↔
      pr.1 ∈ intRange lo hi ∧ (pr.2.1, pr.2.2) ∈ prices := by
  obtain ⟨dc, uc, up⟩ := pr
  simp only [genPairs, List.mem_flatMap, List.mem_map]
  constructor
  · rintro ⟨d, hd, p, hp, heq⟩
    rw [Prod.mk.injEq] at heq
    obtain ⟨rfl, heq2⟩ := heq
    rw [Prod.mk.injEq] at heq2
    obtain ⟨rfl, rfl⟩ := heq2
    simpa [hd] using hp
  · rintro ⟨hd, hp⟩
    exact ⟨dc, hd, (uc, up), hp, rfl⟩

theorem genPairs_nil_prices (lo hi : ℤ) : genPairs lo hi [] = [] := by
  simp [genPairs]

theorem intRange_eq_nil {lo hi : ℤ} (h : hi < lo) : intRange lo hi = [] := by
  have h0 : (hi + 1 - lo).toNat = 0 := by omega
  simp [intRange, h0]

theorem genPairs_ne_nil {lo hi : ℤ} {prices : List (ℚ × ℚ)} (hr : lo ≤ hi)
    (hp : prices ≠ []) : genPairs lo hi prices ≠ [] := by
  intro hnil
  cases prices with
  | nil => exact hp rfl
  | cons p ps =>
    have hmem : (lo, p.1, p.2) ∈ genPairs lo hi (p :: ps) :=
      mem_genPairs.mpr ⟨mem_intRange.mpr ⟨le_refl lo, hr⟩, by simp⟩
    rw [hnil] at hmem
    cases hmem

/-! ## Lemmas about `pick` -/

theorem filter_head?_eq_find? {α : Type} (p : α → Bool) (l : List α) :
    (l.filter p).head? = l.find? p := by
  induction l with
  | nil => rfl
  | cons x xs ih =>
    by_cases h : p x
    · rw [List.filter_cons_of_pos h, List.find?_cons_of_pos _ h]
      rfl
    · rw [List.filter_cons_of_neg (by simpa using h),
        List.find?_cons_of_neg _ h]
      exact ih

theorem find?_congr_mem {α : Type} {p q : α → Bool} {l : List α}
    (h : ∀ x ∈ l, p x = q x) : l.find? p = l.find? q := by
  induction l with
  | nil => rfl
  | cons x xs ih =>
    have hx := h x (List.mem_cons_self _ _)
    by_cases hp : p x
    · rw [List.find?_cons_of_pos _ hp, List.find?_cons_of_pos _ (hx ▸ hp)]
    · rw [List.find?_cons_of_neg _ hp, List.find?_cons_of_neg _ (hx ▸ hp)]
      exact ih fun y hy => h y (List.mem_cons_of_mem _ hy)

theorem pick_spec {B : List Combo} {p : Combo} (h : pick B = some p) :
    p ∈ B ∧ (∀ c ∈ B, p.total_price ≤ c.total_price) ∧
      ∀ c ∈ B, c.total_price = p.total_price →
        p.drive_count ≤ c.drive_count := by
  rw [pick] at h
  cases hmp : listMin (B.map Combo.total_price) with
  | none => rw [hmp] at h; cases h
  | some mp =>
    rw [hmp] at h
    simp only at h
    cases hmdc :
        listMin ((B.filter fun c => c.total_price == mp).map Combo.drive_count) with
    | none => rw [hmdc] at h; cases h
    | some mdc =>
      rw [hmdc] at h
      simp only at h
      cases hts :
          (B.filter fun c => c.total_price == mp).filter
            fun c => c.drive_count == mdc with
      | nil => rw [hts] at h; cases h
      | cons q qs =>
        rw [hts] at h
        have hpq : q = p := by
          simpa using h
        subst hpq
        have hqmem : q ∈ (B.filter fun c => c.total_price == mp).filter
            fun c => c.drive_count == mdc := by
          rw [hts]; exact List.mem_cons_self _ _
        have hqch : q ∈ B.filter fun c => c.total_price == mp :=
          (List.mem_filter.mp hqmem).1
        have hqdc : q.drive_count = mdc := by
          have := (List.mem_filter.mp hqmem).2
          simpa using this
        have hqB : q ∈ B := (List.mem_filter.mp hqch).1
        have hqmp : q.total_price = mp := by
          have := (List.mem_filter.mp hqch).2
          simpa using this
        refine ⟨hqB, ?_, ?_⟩
        · intro c hc
          rw [hqmp]
          exact listMin_le hmp _ (List.mem_map_of_mem _ hc)
        · intro c hc hcp
          rw [hqdc]
          have hcch : c ∈ B.filter fun x => x.total_price == mp :=
            List.mem_filter.mpr ⟨hc, by simp [hcp, hqmp]⟩
          exact listMin_le hmdc _ (List.mem_map_of_mem _ hcch)

theorem pick_mem {B : List Combo} {p : Combo} (h : pick B = some p) : p ∈ B :=
  (pick_spec h).1

theorem pick_price_min {B : List Combo} {p : Combo} (h : pick B = some p) :
    ∀ c ∈ B, p.total_price ≤ c.total_price :=
  (pick_spec h).2.1

theorem pick_price {B : List Combo} {p : Combo} {mp : ℚ} (h : pick B = some p)
    (hmp : listMin (B.map Combo.total_price) = some mp) :
    p.total_price = mp := by
  obtain ⟨c, hcB, hcp⟩ := List.mem_map.mp (listMin_mem hmp)
  refine le_antisymm ?_ ?_
  · rw [← hcp]
    exact pick_price_min h c hcB
  · exact listMin_le hmp _ (List.mem_map_of_mem _ (pick_mem h))

theorem pick_isSome {B : List Combo} (h : B ≠ []) : ∃ p, pick B = some p := by
  have hmapne : B.map Combo.total_price ≠ [] := by
    simpa using h
  obtain ⟨mp, hmp⟩ := listMin_isSome hmapne
  obtain ⟨c, hcB, hcp⟩ := List.mem_map.mp (listMin_mem hmp)
  have hch : c ∈ B.filter fun x => x.total_price == mp :=
    List.mem_filter.mpr ⟨hcB, by simp [hcp]⟩
  have hchne : (B.filter fun x => x.total_price == mp) ≠ [] :=
    List.ne_nil_of_mem hch
  obtain ⟨mdc, hmdc⟩ := listMin_isSome
    (show (B.filter fun x => x.total_price == mp).map Combo.drive_count ≠ []
      by simpa using hchne)
  obtain ⟨c0, hc0, hc0d⟩ := List.mem_map.mp (listMin_mem hmdc)
  have hts : c0 ∈ (B.filter fun x => x.total_price == mp).filter
      fun x => x.drive_count == mdc :=
    List.mem_filter.mpr ⟨hc0, by simp [hc0d]⟩
  obtain ⟨p, hp⟩ :
      ∃ p, ((B.filter fun x => x.total_price == mp).filter
        fun x => x.drive_count == mdc).head? = some p := by
    cases hl : (B.filter fun x => x.total_price == mp).filter
        fun x => x.drive_count == mdc with
    | nil => exact absurd (hl ▸ hts) (List.not_mem_nil c0)
    | cons q qs => exact ⟨q, rfl⟩
  refine ⟨p, ?_⟩
  rw [pick, hmp]
  simp only
  rw [hmdc]
  simp only
  rw [hp]

theorem pick_eq_specPick {B : List Combo} {p : Combo} (h : pick B = some p) :
    specPick B = some p := by
  rw [pick] at h
  cases hmp : listMin (B.map Combo.total_price) with
  | none => rw [hmp] at h; cases h
  | some mp =>
    rw [hmp] at h
    simp only at h
    cases hmdc :
        listMin ((B.filter fun c => c.total_price == mp).map Combo.drive_count) with
    | none => rw [hmdc] at h; cases h
    | some mdc =>
      rw [hmdc] at h
      simp only at h
      rw [List.filter_filter, filter_head?_eq_find?] at h
      rw [specPick]
      rw [find?_congr_mem (q := fun c =>
        (c.drive_count == mdc) && (c.total_price == mp)) ?_]
      · exact h
      · intro c hc
        obtain ⟨cw, hcwB, hcwp⟩ := List.mem_map.mp (listMin_mem hmp)
        obtain ⟨c0, hc0ch, hc0d⟩ := List.mem_map.mp (listMin_mem hmdc)
        have hc0B : c0 ∈ B := (List.mem_filter.mp hc0ch).1
        have hc0p : c0.total_price = mp := by
          have := (List.mem_filter.mp hc0ch).2
          simpa using this
        rw [Bool.eq_iff_iff]
        simp only [decide_eq_true_eq, Bool.and_eq_true, beq_iff_eq]
        constructor
        · rintro ⟨hmin, hdcmin⟩
          have hcp : c.total_price = mp := by
            refine le_antisymm ?_ (listMin_le hmp _ (List.mem_map_of_mem _ hc))
            rw [← hcwp]
            exact hmin cw hcwB
          have hcch : c ∈ B.filter fun x => x.total_price == mp :=
            List.mem_filter.mpr ⟨hc, by simp [hcp]⟩
          refine ⟨?_, hcp⟩
          refine le_antisymm ?_ (listMin_le hmdc _ (List.mem_map_of_mem _ hcch))
          rw [← hc0d]
          exact hdcmin c0 hc0B (by rw [hc0p, hcp])
        · rintro ⟨hdc, hpr⟩
          constructor
          · intro d hd
            rw [hpr]
            exact listMin_le hmp _ (List.mem_map_of_mem _ hd)
          · intro d hd hdp
            have hdch : d ∈ B.filter fun x => x.total_price == mp :=
              List.mem_filter.mpr ⟨hd, by simp [hdp, hpr]⟩
            rw [hdc]
            exact listMin_le hmdc _ (List.mem_map_of_mem _ hdch)

/-! ## Lemmas about `rankStep` and `rankLoop` -/

theorem rankStep_cases (acc combos : List Combo) :
    rankStep acc combos = acc ∨
      ∃ p, pick combos = some p ∧ rankStep acc combos = p :: acc ∧
        ∀ prev t, acc = prev :: t → p.total_price ≤ prev.total_price := by
  cases hmp : listMin (combos.map Combo.total_price) with
  | none => exact Or.inl (by simp [rankStep, hmp])
  | some mp =>
    by_cases hdom : dominatedCheck acc mp
    · exact Or.inl (by simp [rankStep, hmp, hdom])
    · cases hpick : pick combos with
      | none => exact Or.inl (by simp [rankStep, hmp, hdom, hpick])
      | some p =>
        refine Or.inr ⟨p, rfl, by simp [rankStep, hmp, hdom, hpick], ?_⟩
        intro prev t hacc
        subst hacc
        have hnd : ¬prev.total_price < mp := by
          simpa [dominatedCheck] using hdom
        rw [pick_price hpick hmp]
        exact le_of_not_lt hnd

theorem rankStep_skip {acc combos : List Combo} (hne : combos ≠ [])
    (h : rankStep acc combos = acc) :
    ∃ prev t mp, acc = prev :: t ∧
      listMin (combos.map Combo.total_price) = some mp ∧
      prev.total_price < mp := by
  obtain ⟨mp, hmp⟩ := listMin_isSome
    (show combos.map Combo.total_price ≠ [] by simpa using hne)
  by_cases hdom : dominatedCheck acc mp
  · cases acc with
    | nil => simp [dominatedCheck] at hdom
    | cons prev t =>
      exact ⟨prev, t, mp, rfl, hmp, by simpa [dominatedCheck] using hdom⟩
  · obtain ⟨p, hp⟩ := pick_isSome hne
    have heq : rankStep acc combos = p :: acc := by
      simp [rankStep, hmp, hdom, hp]
    rw [h] at heq
    exact absurd heq.symm (List.cons_ne_self p acc)

theorem rankStep_subset {acc combos : List Combo} :
    ∀ r ∈ rankStep acc combos, r ∈ acc ∨ pick combos = some r := by
  rcases rankStep_cases acc combos with h | ⟨p, hp, heq, -⟩
  · intro r hr
    exact Or.inl (h ▸ hr)
  · intro r hr
    rw [heq] at hr
    rcases List.mem_cons.mp hr with rfl | hr'
    · exact Or.inr hp
    · exact Or.inl hr'

theorem mem_rankStep_of_mem {acc combos : List Combo} {a : Combo}
    (ha : a ∈ acc) : a ∈ rankStep acc combos := by
  rcases rankStep_cases acc combos with h | ⟨p, -, heq, -⟩
  · rw [h]
    exact ha
  · rw [heq]
    exact List.mem_cons_of_mem _ ha

theorem mem_rankLoop_of_mem :
    ∀ (buckets : List (ℚ × List Combo)) (acc : List Combo) (a : Combo),
      a ∈ acc → a ∈ rankLoop buckets acc := by
  intro buckets
  induction buckets with
  | nil =>
    intro acc a ha
    simpa [rankLoop] using ha
  | cons q rest ih =>
    intro acc a ha
    obtain ⟨k, combos⟩ := q
    rw [rankLoop]
    exact ih _ a (mem_rankStep_of_mem ha)

theorem rankLoop_mem :
    ∀ (buckets : List (ℚ × List Combo)) (acc : List Combo) (r : Combo),
      r ∈ rankLoop buckets acc →
      r ∈ acc ∨ ∃ q ∈ buckets, pick q.2 = some r := by
  intro buckets
  induction buckets with
  | nil =>
    intro acc r hr
    exact Or.inl (by simpa [rankLoop] using hr)
  | cons q rest ih =>
    intro acc r hr
    obtain ⟨k, combos⟩ := q
    rw [rankLoop] at hr
    rcases ih _ r hr with hr' | ⟨q', hq', hpick⟩
    · rcases rankStep_subset r hr' with h | h
      · exact Or.inl h
      · exact Or.inr ⟨(k, combos), List.mem_cons_self _ _, h⟩
    · exact Or.inr ⟨q', List.mem_cons_of_mem _ hq', hpick⟩

theorem rankLoop_price_pairwise :
    ∀ (buckets : List (ℚ × List Combo)) (acc : List Combo),
      acc.Pairwise (fun a b => a.total_price ≤ b.total_price) →
      (rankLoop buckets acc).Pairwise
        fun a b => b.total_price ≤ a.total_price := by
  intro buckets
  induction buckets with
  | nil =>
    intro acc hacc
    rw [rankLoop]
    exact List.pairwise_reverse.mpr hacc
  | cons q rest ih =>
    intro acc hacc
    obtain ⟨k, combos⟩ := q
    rw [rankLoop]
    refine ih _ ?_
    rcases rankStep_cases acc combos with h | ⟨p, hp, heq, hle⟩
    · rw [h]
      exact hacc
    · rw [heq]
      refine List.pairwise_cons.mpr ⟨?_, hacc⟩
      intro b hb
      cases acc with
      | nil => cases hb
      | cons prev t =>
        have hpp : p.total_price ≤ prev.total_price := hle prev t rfl
        rcases List.mem_cons.mp hb with rfl | hb'
        · exact hpp
        · exact le_trans hpp ((List.pairwise_cons.mp hacc).1 b hb')

theorem rankLoop_cap_pairwise :
    ∀ (buckets : List (ℚ × List Combo)) (acc : List Combo),
      (∀ q ∈ buckets, ∀ c ∈ q.2, c.total_capacity = Except.ok q.1) →
      buckets.Pairwise (fun q r => r.1 < q.1) →
      (∀ a ∈ acc, ∀ q ∈ buckets, ∀ x, a.total_capacity = Except.ok x →
        q.1 < x) →
      acc.Pairwise (fun a b => capacityGt b a) →
      (rankLoop buckets acc).Pairwise capacityGt := by
  intro buckets
  induction buckets with
  | nil =>
    intro acc _ _ _ hacc
    rw [rankLoop]
    exact List.pairwise_reverse.mpr hacc
  | cons q0 rest ih =>
    intro acc hb hsort hlink hacc
    obtain ⟨k, combos⟩ := q0
    rw [rankLoop]
    have hbrest : ∀ q' ∈ rest, ∀ c ∈ q'.2, c.total_capacity = Except.ok q'.1 :=
      fun q' hq' => hb q' (List.mem_cons_of_mem _ hq')
    have hsortrest := (List.pairwise_cons.mp hsort).2
    have hheadlt := (List.pairwise_cons.mp hsort).1
    rcases rankStep_cases acc combos with h | ⟨p, hp, heq, -⟩
    · rw [h]
      exact ih acc hbrest hsortrest
        (fun a ha q' hq' => hlink a ha q' (List.mem_cons_of_mem _ hq')) hacc
    · rw [heq]
      have hpcap : p.total_capacity = Except.ok k :=
        hb (k, combos) (List.mem_cons_self _ _) p (pick_mem hp)
      refine ih _ hbrest hsortrest ?_ ?_
      · intro a ha q' hq' x hax
        rcases List.mem_cons.mp ha with rfl | ha'
        · have hxk : x = k := Except.ok.inj (hax.symm.trans hpcap)
          exact hxk ▸ hheadlt q' hq'
        · exact hlink a ha' q' (List.mem_cons_of_mem _ hq') x hax
      · refine List.pairwise_cons.mpr ⟨?_, hacc⟩
        intro b hb' x y hbx hpy
        have hyk : y = k := Except.ok.inj (hpy.symm.trans hpcap)
        have hkx : k < x := hlink b hb' (k, combos) (List.mem_cons_self _ _) x hbx
        exact hyk ▸ hkx

theorem rankLoop_dominates :
    ∀ (buckets : List (ℚ × List Combo)) (acc : List Combo),
      (∀ q ∈ buckets, ∀ c ∈ q.2, c.total_capacity = Except.ok q.1) →
      buckets.Pairwise (fun q r => r.1 < q.1) →
      (∀ a ∈ acc, ∀ q ∈ buckets, ∃ x, a.total_capacity = Except.ok x ∧
        q.1 ≤ x) →
      ∀ q ∈ buckets, ∀ c ∈ q.2, ∃ r ∈ rankLoop buckets acc, ∃ kr,
        r.total_capacity = Except.ok kr ∧ q.1 ≤ kr ∧
        r.total_price ≤ c.total_price := by
  intro buckets
  induction buckets with
  | nil =>
    intro acc _ _ _ q hq
    cases hq
  | cons q0 rest ih =>
    intro acc hb hsort hlink q hq c hc
    obtain ⟨k, combos⟩ := q0
    rw [rankLoop]
    have hbrest : ∀ q' ∈ rest, ∀ c' ∈ q'.2, c'.total_capacity = Except.ok q'.1 :=
      fun q' hq' => hb q' (List.mem_cons_of_mem _ hq')
    have hsortrest := (List.pairwise_cons.mp hsort).2
    have hheadlt := (List.pairwise_cons.mp hsort).1
    rcases List.mem_cons.mp hq with rfl | hq'
    · have hcne : combos ≠ [] := List.ne_nil_of_mem hc
      rcases rankStep_cases acc combos with h | ⟨p, hp, heq, -⟩
      · obtain ⟨prev, t, mp, hacc, hmp, hlt⟩ := rankStep_skip hcne h
        have hprevacc : prev ∈ acc := hacc ▸ List.mem_cons_self _ _
        have hprevres : prev ∈ rankLoop rest (rankStep acc combos) := by
          rw [h]
          exact mem_rankLoop_of_mem rest acc prev hprevacc
        obtain ⟨x, hpx, hkx⟩ :=
          hlink prev hprevacc (k, combos) (List.mem_cons_self _ _)
        refine ⟨prev, hprevres, x, hpx, hkx, ?_⟩
        have hmpc : mp ≤ c.total_price :=
          listMin_le hmp _ (List.mem_map_of_mem _ hc)
        exact le_of_lt (lt_of_lt_of_le hlt hmpc)
      · have hpres : p ∈ rankLoop rest (rankStep acc combos) := by
          rw [heq]
          exact mem_rankLoop_of_mem rest _ p (List.mem_cons_self _ _)
        have hpcap : p.total_capacity = Except.ok k :=
          hb (k, combos) (List.mem_cons_self _ _) p (pick_mem hp)
        exact ⟨p, hpres, k, hpcap, le_refl k, pick_price_min hp c hc⟩
    · refine ih (rankStep acc combos) hbrest hsortrest ?_ q hq' c hc
      intro a ha q' hq''
      rcases rankStep_subset a ha with ha' | hpa
      · obtain ⟨x, hax, hk'x⟩ := hlink a ha' q' (List.mem_cons_of_mem _ hq'')
        exact ⟨x, hax, hk'x⟩
      · have hacap : a.total_capacity = Except.ok k :=
          hb (k, combos) (List.mem_cons_self _ _) a (pick_mem hpa)
        exact ⟨k, hacap, le_of_lt (hheadlt q' hq'')⟩

theorem rank_ok {prices : List (ℚ × ℚ)} {lo hi : ℤ} {raid : String}
    {l : List Combo} (h : rank_combinations prices lo hi raid = Except.ok l) :
    ∃ m, buildAll (genPairs lo hi prices) raid [] = Except.ok m ∧
      l = rankLoop (sortDesc m) [] := by
  rw [rank_combinations] at h
  cases hb : buildAll (genPairs lo hi prices) raid [] with
  | error e =>
    rw [hb] at h
    cases h
  | ok m =>
    rw [hb] at h
    simp only at h
    exact ⟨m, rfl, (Except.ok.inj h).symm⟩

theorem buckets_cap {pairs : List (ℤ × ℚ × ℚ)} {raid : String}
    {m : List (ℚ × List Combo)} (h : buildAll pairs raid [] = Except.ok m) :
    ∀ q ∈ sortDesc m, ∀ c ∈ q.2, c.total_capacity = Except.ok q.1 := by
  have hcap : ∀ q ∈ m, ∀ c ∈ q.2, c.total_capacity = Except.ok q.1 := by
    refine buildAll_forall (P := fun k x => x.total_capacity = Except.ok k)
      pairs raid [] m h ?_ ?_
    · intro q hq
      cases hq
    · intro pr hpr k hk
      exact hk
  intro q hq
  exact hcap q ((sortDesc_perm m).mem_iff.mp hq)

theorem buckets_sorted {pairs : List (ℤ × ℚ × ℚ)} {raid : String}
    {m : List (ℚ × List Combo)} (h : buildAll pairs raid [] = Except.ok m) :
    (sortDesc m).Pairwise fun q r => r.1 < q.1 := by
  have hnd : (m.map Prod.fst).Nodup :=
    buildAll_preserve (Q := fun mm => (mm.map Prod.fst).Nodup)
      (fun m' k c hq => insertCombo_keys_nodup hq)
      pairs raid [] m h (by simp)
  exact sortDesc_pairwise_lt hnd

/-! ## Assembly helpers -/

theorem rank_result_ok_caps {prices : List (ℚ × ℚ)} {lo hi : ℤ}
    {raid : String} {l : List Combo}
    (h : rank_combinations prices lo hi raid = Except.ok l) :
    ∀ r ∈ l, ∃ k, r.total_capacity = Except.ok k := by
  obtain ⟨m, hm, rfl⟩ := rank_ok h
  intro r hr
  rcases rankLoop_mem (sortDesc m) [] r hr with h0 | ⟨q, hq, hpick⟩
  · cases h0
  · exact ⟨q.1, buckets_cap hm q hq r (pick_mem hpick)⟩

theorem exists_ok_caps :
    ∀ l : List Combo, (∀ a ∈ l, ∃ x, a.total_capacity = Except.ok x) →
      l.Pairwise capacityGt →
      ∃ ks : List ℚ, l.map Combo.total_capacity = ks.map Except.ok ∧
        ks.Pairwise fun a b => b < a := by
  intro l
  induction l with
  | nil =>
    intro _ _
    exact ⟨[], rfl, List.Pairwise.nil⟩
  | cons a t ih =>
    intro hok hp
    obtain ⟨x, hx⟩ := hok a (List.mem_cons_self _ _)
    obtain ⟨ks, hks, hkp⟩ := ih (fun b hb => hok b (List.mem_cons_of_mem _ hb))
      (List.pairwise_cons.mp hp).2
    refine ⟨x :: ks, by simp [hx, hks], ?_⟩
    refine List.pairwise_cons.mpr ⟨?_, hkp⟩
    intro y hy
    have hmem : Except.ok y ∈ t.map Combo.total_capacity := by
      rw [hks]
      exact List.mem_map_of_mem _ hy
    obtain ⟨b, hb, hby⟩ := List.mem_map.mp hmem
    exact (List.pairwise_cons.mp hp).1 b hb x y hx hby

/-! ## Bucket order: each bucket lists its combos in generation order -/

theorem insertCombo_mem_elim {m : List (ℚ × List Combo)} {tc k : ℚ}
    {c : Combo} {B : List Combo} (hnd : (m.map Prod.fst).Nodup)
    (h : (k, B) ∈ insertCombo m tc c) :
    ((k, B) ∈ m ∧ k ≠ tc) ∨
      (k = tc ∧ ((tc ∉ m.map Prod.fst ∧ B = [c]) ∨
        ∃ B0, (k, B0) ∈ m ∧ B = B0 ++ [c])) := by
  induction m with
  | nil =>
    rw [insertCombo, List.mem_singleton, Prod.mk.injEq] at h
    obtain ⟨rfl, rfl⟩ := h
    exact Or.inr ⟨rfl, Or.inl ⟨by simp, rfl⟩⟩
  | cons y ys ih =>
    obtain ⟨ky, cs⟩ := y
    rw [List.map_cons, List.nodup_cons] at hnd
    by_cases hky : ky = tc
    · subst hky
      rw [insertCombo, if_pos rfl, List.mem_cons] at h
      rcases h with heq | hmem
      · rw [Prod.mk.injEq] at heq
        obtain ⟨rfl, rfl⟩ := heq
        exact Or.inr ⟨rfl, Or.inr ⟨cs, List.mem_cons_self _ _, rfl⟩⟩
      · by_cases hkeq : k = ky
        · subst hkeq
          have : k ∈ ys.map Prod.fst :=
            List.mem_map_of_mem Prod.fst hmem
          exact absurd this hnd.1
        · exact Or.inl ⟨List.mem_cons_of_mem _ hmem, hkeq⟩
    · rw [insertCombo, if_neg hky, List.mem_cons] at h
      rcases h with heq | hmem
      · rw [Prod.mk.injEq] at heq
        obtain ⟨rfl, rfl⟩ := heq
        exact Or.inl ⟨List.mem_cons_self _ _, hky⟩
      · rcases ih hnd.2 hmem with ⟨hin, hne⟩ | ⟨rfl, hcase⟩
        · exact Or.inl ⟨List.mem_cons_of_mem _ hin, hne⟩
        · rcases hcase with ⟨habsent, rfl⟩ | ⟨B0, hB0, rfl⟩
          · refine Or.inr ⟨rfl, Or.inl ⟨?_, rfl⟩⟩
            rw [List.map_cons, List.mem_cons]
            rintro (h1 | h2)
            · exact hky h1.symm
            · exact habsent h2
          · exact Or.inr ⟨rfl, Or.inr ⟨B0, List.mem_cons_of_mem _ hB0, rfl⟩⟩

theorem buildAll_bucket_filter :
    ∀ (pairs : List (ℤ × ℚ × ℚ)) (raid : String)
      (m0 m : List (ℚ × List Combo)) (done : List Combo),
      buildAll pairs raid m0 = Except.ok m →
      (m0.map Prod.fst).Nodup →
      (∀ k B, (k, B) ∈ m0 →
        B = done.filter fun c => decide (c.total_capacity = Except.ok k)) →
      (∀ k : ℚ, k ∉ m0.map Prod.fst →
        (done.filter fun c => decide (c.total_capacity = Except.ok k)) = []) →
      ∀ k B, (k, B) ∈ m →
        B = (done ++ combosOf pairs raid).filter
          fun c => decide (c.total_capacity = Except.ok k) := by
  intro pairs
  induction pairs with
  | nil =>
    intro raid m0 m done h hnd hchar habs k B hB
    rw [buildAll] at h
    cases h
    simpa [combosOf] using hchar k B hB
  | cons pr rest ih =>
    intro raid m0 m done h hnd hchar habs k B hB
    obtain ⟨dc, uc, up⟩ := pr
    rw [buildAll] at h
    cases hcap : Combo.total_capacity ⟨dc, uc, up, raid⟩ with
    | error e =>
      rw [hcap] at h
      cases h
    | ok tc =>
      rw [hcap] at h
      have hres := ih raid _ m (done ++ [⟨dc, uc, up, raid⟩]) h
        (insertCombo_keys_nodup hnd) ?_ ?_ k B hB
      · simpa [combosOf, List.append_assoc] using hres
      · intro k' B' hB'
        rcases insertCombo_mem_elim hnd hB' with ⟨hmem, hne⟩ | ⟨rfl, hcase⟩
        · rw [List.filter_append]
          have hone : (List.filter
              (fun c => decide (c.total_capacity = Except.ok k'))
              [(⟨dc, uc, up, raid⟩ : Combo)]) = [] := by
            simp [hcap, Ne.symm hne]
          rw [hone, List.append_nil]
          exact hchar k' B' hmem
        · rcases hcase with ⟨habsent, rfl⟩ | ⟨B0, hB0, rfl⟩
          · rw [List.filter_append, habs k' habsent]
            simp [hcap]
          · rw [List.filter_append, ← hchar k' B0 hB0]
            simp [hcap]
      · intro k' hk'
        have hks := insertCombo_keys m0 tc ⟨dc, uc, up, raid⟩
        have h1 : k' ∉ m0.map Prod.fst ∧ k' ≠ tc := by
          rw [hks] at hk'
          by_cases htc : tc ∈ m0.map Prod.fst
          · rw [if_pos htc] at hk'
            exact ⟨hk', fun he => hk' (he ▸ htc)⟩
          · rw [if_neg htc] at hk'
            rw [List.mem_append, List.mem_singleton] at hk'
            push_neg at hk'
            exact hk'
        rw [List.filter_append, habs k' h1.1]
        simp [hcap, Ne.symm h1.2]

/-! ## The claims -/

/-- Claim C1: for every price catalog, drive-count range and RAID level, the
list returned by `rank_combinations`, walked in order, has non-increasing
`total_price`: no later entry's `total_price` is strictly greater than any
earlier entry's. -/
theorem rank_combinations_price_antitone (prices : List (ℚ × ℚ))
    (lo hi : ℤ) (raid : String) (l : List Combo)
    (h : rank_combinations prices lo hi raid = Except.ok l) :
    l.Pairwise fun a b => b.total_price ≤ a.total_price := by
  obtain ⟨m, hm, rfl⟩ := rank_ok h
  exact rankLoop_price_pairwise (sortDesc m) [] List.Pairwise.nil

set_option maxRecDepth 40000 in
/-- Witness for C1 on the catalog `{1.0: 100, 2.0: 150}`, range `[3, 4]`,
RAID5. -/
theorem rank_combinations_price_antitone_witness :
    ([⟨4, 2, 150, "RAID5"⟩, ⟨3, 2, 150, "RAID5"⟩, ⟨4, 1, 100, "RAID5"⟩,
      ⟨3, 1, 100, "RAID5"⟩] : List Combo).Pairwise
      (fun a b => b.total_price ≤ a.total_price) :=
  rank_combinations_price_antitone [(1, 100), (2, 150)] 3 4 "RAID5" _
    (by with_unfolding_all rfl)

/-- Claim C2: for every price catalog, drive-count range and RAID level, the
`total_capacity` values along the list returned by `rank_combinations` are
strictly decreasing. -/
theorem rank_combinations_capacity_strict_desc (prices : List (ℚ × ℚ))
    (lo hi : ℤ) (raid : String) (l : List Combo)
    (h : rank_combinations prices lo hi raid = Except.ok l) :
    ∃ ks : List ℚ, l.map Combo.total_capacity = ks.map Except.ok ∧
      ks.Pairwise fun a b => b < a := by
  refine exists_ok_caps l (rank_result_ok_caps h) ?_
  obtain ⟨m, hm, rfl⟩ := rank_ok h
  exact rankLoop_cap_pairwise (sortDesc m) [] (buckets_cap hm)
    (buckets_sorted hm) (fun a ha => absurd ha (List.not_mem_nil a))
    List.Pairwise.nil

set_option maxRecDepth 40000 in
/-- Witness for C2 on the catalog `{1.0: 100, 2.0: 150}`, range `[3, 4]`,
RAID5: capacities 6, 4, 3, 2. -/
theorem rank_combinations_capacity_strict_desc_witness :
    ∃ ks : List ℚ,
      ([⟨4, 2, 150, "RAID5"⟩, ⟨3, 2, 150, "RAID5"⟩, ⟨4, 1, 100, "RAID5"⟩,
        ⟨3, 1, 100, "RAID5"⟩] : List Combo).map Combo.total_capacity =
          ks.map Except.ok ∧
        ks.Pairwise fun a b => b < a :=
  rank_combinations_capacity_strict_desc [(1, 100), (2, 150)] 3 4 "RAID5" _
    (by with_unfolding_all rfl)

/-- Claim C3: every capacity achieved by a generated candidate (a drive count
in range paired with a catalog entry) but absent from the returned list is
dominated: some returned entry has at least that capacity and at most that
candidate's price. -/
theorem rank_combinations_dominance (prices : List (ℚ × ℚ)) (lo hi : ℤ)
    (raid : String) (l : List Combo) (dc : ℤ) (uc up : ℚ) (k : ℚ)
    (h : rank_combinations prices lo hi raid = Except.ok l)
    (hdc : dc ∈ intRange lo hi) (hpr : (uc, up) ∈ prices)
    (hcap : Combo.total_capacity ⟨dc, uc, up, raid⟩ = Except.ok k)
    (habs : ∀ r ∈ l, r.total_capacity ≠ Except.ok k) :
    ∃ r ∈ l, ∃ kr, r.total_capacity = Except.ok kr ∧ k ≤ kr ∧
      r.total_price ≤ Combo.total_price ⟨dc, uc, up, raid⟩ := by
  obtain ⟨m, hm, rfl⟩ := rank_ok h
  have hpair : (dc, uc, up) ∈ genPairs lo hi prices :=
    mem_genPairs.mpr ⟨hdc, hpr⟩
  obtain ⟨B, hB, hcB⟩ :=
    buildAll_cover (genPairs lo hi prices) raid [] m hm (dc, uc, up) hpair k
      hcap
  have hBs : (k, B) ∈ sortDesc m := (sortDesc_perm m).mem_iff.mpr hB
  obtain ⟨r, hr, kr, hrc, hkkr, hrp⟩ :=
    rankLoop_dominates (sortDesc m) [] (buckets_cap hm) (buckets_sorted hm)
      (fun a ha => absurd ha (List.not_mem_nil a)) (k, B) hBs _ hcB
  exact ⟨r, hr, kr, hrc, hkkr, hrp⟩

set_option maxRecDepth 40000 in
/-- Witness for C3 on the catalog `{1.0: 500, 2.0: 150}`, range `[3, 3]`,
RAID5: the capacity-2 candidate `3 × 1.0` (price 1500) is absent from the
result and dominated by the returned capacity-4 entry (price 450). -/
theorem rank_combinations_dominance_witness :
    ∃ r ∈ ([⟨3, 2, 150, "RAID5"⟩] : List Combo), ∃ kr,
      r.total_capacity = Except.ok kr ∧ (2 : ℚ) ≤ kr ∧
        r.total_price ≤ Combo.total_price ⟨3, 1, 500, "RAID5"⟩ :=
  rank_combinations_dominance [(1, 500), (2, 150)] 3 3 "RAID5" _ 3 1 500 2
    (by with_unfolding_all rfl) (by with_unfolding_all decide)
    (by with_unfolding_all decide) (by with_unfolding_all rfl)
    (by with_unfolding_all decide)

/-- Claim C4 (the code diverges on RAID4): for every `drive_count` and
`unit_capacity`, `total_capacity` equals `unit_capacity × (drive_count − 1)`
for RAID3 and RAID5, but for "RAID4" the code raises
`ValueError("Unknown RAID Level RAID4")` — the source's membership list reads
`"RADI4"`, not `"RAID4"` — contradicting the spec's `RAID3/4/5` formula. -/
theorem total_capacity_parity_levels (dc : ℤ) (uc up : ℚ) :
    Combo.total_capacity ⟨dc, uc, up, "RAID3"⟩ =
        Except.ok (uc * ((dc : ℚ) - 1)) ∧
      Combo.total_capacity ⟨dc, uc, up, "RAID5"⟩ =
        Except.ok (uc * ((dc : ℚ) - 1)) ∧
      Combo.total_capacity ⟨dc, uc, up, "RAID4"⟩ =
        Except.error "Unknown RAID Level RAID4" := by
  refine ⟨?_, ?_, ?_⟩ <;> rfl

/-- Counterexample for C5: with catalog `{1.0: 100}`, `min_drive_count = 5 >
max_drive_count = 3`, the code does not fail with any error; it returns the
empty list. -/
theorem rank_combinations_inverted_range_no_error :
    rank_combinations [(1, 100)] 5 3 "RAID5" = Except.ok [] ∧
      ∀ e, rank_combinations [(1, 100)] 5 3 "RAID5" ≠ Except.error e := by
  have h : rank_combinations [(1, 100)] 5 3 "RAID5" = Except.ok [] := by
    with_unfolding_all rfl
  exact ⟨h, fun e heq => by rw [h] at heq; cases heq⟩

/-- Amended C5: for every catalog and RAID level, if `min_drive_count >
max_drive_count` then `rank_combinations` returns the empty list (the
`range` is empty), not an `InvalidRange` error — no such error exists in the
code. -/
theorem rank_combinations_inverted_range_empty (prices : List (ℚ × ℚ))
    (lo hi : ℤ) (raid : String) (h : hi < lo) :
    rank_combinations prices lo hi raid = Except.ok [] := by
  have hgen : genPairs lo hi prices = [] := by
    rw [genPairs, intRange_eq_nil h]
    rfl
  rw [rank_combinations, hgen]
  rfl

/-- Witness for the amended C5. -/
theorem rank_combinations_inverted_range_empty_witness :
    rank_combinations [(1, 100), (2, 150)] 5 3 "RAID5" = Except.ok [] :=
  rank_combinations_inverted_range_empty [(1, 100), (2, 150)] 5 3 "RAID5"
    (by decide)

/-- Claim C6: for every non-empty catalog and non-empty drive-count range, a
RAID level outside the supported identifiers (e.g. "RAID9") makes
`rank_combinations` abort with the `ValueError` and return no list at all. -/
theorem rank_combinations_unsupported_error (prices : List (ℚ × ℚ))
    (lo hi : ℤ) (raid : String) (hp : prices ≠ []) (hr : lo ≤ hi)
    (hs : raid ∉ supportedRaidLevels) :
    ∃ e, rank_combinations prices lo hi raid = Except.error e := by
  refine ⟨"Unknown RAID Level " ++ raid, ?_⟩
  rw [rank_combinations, buildAll_error (genPairs_ne_nil hr hp) hs]

/-- Witness for C6 at catalog `{1.0: 100}`, range `[3, 3]`, level "RAID9". -/
theorem rank_combinations_unsupported_error_witness :
    ∃ e, rank_combinations [(1, 100)] 3 3 "RAID9" = Except.error e :=
  rank_combinations_unsupported_error [(1, 100)] 3 3 "RAID9" (by simp)
    (by decide) (by decide)

/-- Claim C7: every entry of the returned list is its capacity bucket's
representative under the spec's selection rule `specPick`: the bucket member
that attains minimum `total_price`, then minimum `drive_count` among the
price-minimal ones, first encountered (generation order coincides with
catalog iteration order for the fully tied members, which share a drive
count). -/
theorem rank_combinations_bucket_choice (prices : List (ℚ × ℚ)) (lo hi : ℤ)
    (raid : String) (m : List (ℚ × List Combo)) (l : List Combo)
    (hm : buildAll (genPairs lo hi prices) raid [] = Except.ok m)
    (hl : rank_combinations prices lo hi raid = Except.ok l) :
    ∀ r ∈ l, ∃ k B, r.total_capacity = Except.ok k ∧ (k, B) ∈ m ∧
      B = (combosOf (genPairs lo hi prices) raid).filter
        (fun c => decide (c.total_capacity = Except.ok k)) ∧
      specPick B = some r := by
  obtain ⟨m', hm', hleq⟩ := rank_ok hl
  have hmm : m' = m := Except.ok.inj (hm'.symm.trans hm)
  subst hmm
  subst hleq
  intro r hr
  rcases rankLoop_mem (sortDesc m') [] r hr with h0 | ⟨q, hq, hpick⟩
  · cases h0
  · have hqm : (q.1, q.2) ∈ m' := (sortDesc_perm m').mem_iff.mp hq
    refine ⟨q.1, q.2, buckets_cap hm' q hq r (pick_mem hpick), hqm, ?_,
      pick_eq_specPick hpick⟩
    have := buildAll_bucket_filter (genPairs lo hi prices) raid [] m' []
      hm' (by simp) (fun k B hB => absurd hB (List.not_mem_nil _))
      (fun k _ => rfl) q.1 q.2 hqm
    simpa using this

/-- Witness for C7 at catalog `{1.0: 500, 2.0: 150}`, range `[3, 3]`,
RAID5. -/
theorem rank_combinations_bucket_choice_witness :
    ∃ k B, (⟨3, 2, 150, "RAID5"⟩ : Combo).total_capacity = Except.ok k ∧
      (k, B) ∈ [((2 : ℚ), [(⟨3, 1, 500, "RAID5"⟩ : Combo)]),
        ((4 : ℚ), [(⟨3, 2, 150, "RAID5"⟩ : Combo)])] ∧
      B = (combosOf (genPairs 3 3 [(1, 500), (2, 150)]) "RAID5").filter
        (fun c => decide (c.total_capacity = Except.ok k)) ∧
      specPick B = some ⟨3, 2, 150, "RAID5"⟩ :=
  rank_combinations_bucket_choice [(1, 500), (2, 150)] 3 3 "RAID5" _ _
    (by with_unfolding_all rfl) (by with_unfolding_all rfl)
    ⟨3, 2, 150, "RAID5"⟩ (List.mem_singleton_self _)

set_option maxRecDepth 40000 in
/-- Claim C8: on the catalog `{1.0: 500, 2.0: 150}` with drive range
`[3, 3]` and RAID5, `rank_combinations` returns exactly the single
capacity-4 combination `3 × 2.0` of price 450; the capacity-2 candidate
`3 × 1.0` (price 1500) is discarded by the dominance check. -/
theorem rank_combinations_example_dominance_skip :
    rank_combinations [(1, 500), (2, 150)] 3 3 "RAID5" =
        Except.ok [⟨3, 2, 150, "RAID5"⟩] ∧
      Combo.total_capacity ⟨3, 2, 150, "RAID5"⟩ = Except.ok 4 ∧
      Combo.total_price ⟨3, 2, 150, "RAID5"⟩ = 450 ∧
      Combo.total_capacity ⟨3, 1, 500, "RAID5"⟩ = Except.ok 2 ∧
      Combo.total_price ⟨3, 1, 500, "RAID5"⟩ = 1500 := by
  refine ⟨?_, ?_, ?_, ?_, ?_⟩ <;> with_unfolding_all rfl

/-- Claim C9: for every valid drive-count range and RAID level, the empty
catalog yields the empty list, not an error. -/
theorem rank_combinations_empty_catalog (lo hi : ℤ) (raid : String)
    (h : lo ≤ hi) :
    rank_combinations [] lo hi raid = Except.ok [] := by
  rw [rank_combinations, genPairs_nil_prices]
  rfl

/-- Witness for C9 at range `[3, 6]`, RAID5. -/
theorem rank_combinations_empty_catalog_witness :
    rank_combinations [] 3 6 "RAID5" = Except.ok [] :=
  rank_combinations_empty_catalog 3 6 "RAID5" (by decide)

/-- Claim C10: every combination in the returned list was generated from the
inputs: its `drive_count` lies in `[min_drive_count, max_drive_count]`, its
`(unit_capacity, unit_price)` pair is a catalog entry, and its `raid_level`
is the `raid_level` argument. -/
theorem rank_combinations_members_generated (prices : List (ℚ × ℚ))
    (lo hi : ℤ) (raid : String) (l : List Combo)
    (h : rank_combinations prices lo hi raid = Except.ok l) :
    ∀ r ∈ l, (lo ≤ r.drive_count ∧ r.drive_count ≤ hi) ∧
      (r.unit_capacity, r.unit_price) ∈ prices ∧ r.raid_level = raid := by
  obtain ⟨m, hm, rfl⟩ := rank_ok h
  have hgen : ∀ q ∈ m, ∀ x ∈ q.2,
      (x.drive_count, x.unit_capacity, x.unit_price) ∈ genPairs lo hi prices ∧
        x.raid_level = raid := by
    refine buildAll_forall (P := fun k x =>
      (x.drive_count, x.unit_capacity, x.unit_price) ∈ genPairs lo hi prices ∧
        x.raid_level = raid) (genPairs lo hi prices) raid [] m hm ?_ ?_
    · intro q hq
      cases hq
    · intro pr hpr k hk
      exact ⟨by simpa using hpr, rfl⟩
  intro r hr
  rcases rankLoop_mem (sortDesc m) [] r hr with h0 | ⟨q, hq, hpick⟩
  · cases h0
  · have hqm : q ∈ m := (sortDesc_perm m).mem_iff.mp hq
    obtain ⟨hmem, hraid⟩ := hgen q hqm r (pick_mem hpick)
    have hgp := mem_genPairs.mp hmem
    exact ⟨mem_intRange.mp hgp.1, hgp.2, hraid⟩

/-- Witness for C10 at catalog `{1.0: 500, 2.0: 150}`, range `[3, 3]`,
RAID5. -/
theorem rank_combinations_members_generated_witness :
    ((3 : ℤ) ≤ (⟨3, 2, 150, "RAID5"⟩ : Combo).drive_count ∧
        (⟨3, 2, 150, "RAID5"⟩ : Combo).drive_count ≤ (3 : ℤ)) ∧
      ((⟨3, 2, 150, "RAID5"⟩ : Combo).unit_capacity,
        (⟨3, 2, 150, "RAID5"⟩ : Combo).unit_price) ∈
          [((1 : ℚ), (500 : ℚ)), ((2 : ℚ), (150 : ℚ))] ∧
      (⟨3, 2, 150, "RAID5"⟩ : Combo).raid_level = "RAID5" :=
  rank_combinations_members_generated [(1, 500), (2, 150)] 3 3 "RAID5" _
    (by with_unfolding_all rfl) ⟨3, 2, 150, "RAID5"⟩
    (List.mem_singleton_self _)
